import Mathlib

/-!
Verification of the Project-0 knowledge-accumulation framework
(`src/project_0_framework.py`): a deduplicating knowledge store keyed by a
SHA-256 fingerprint, plus a proof tree with a recursive strength score.

Modelling conventions:
* Python byte strings are `List Nat` (each element a byte value < 256);
  `str.encode()` is UTF-8 encoding of the character sequence.
* `hashlib.sha256(..).hexdigest()` is implemented bit-for-bit over `Nat`
  arithmetic with explicit reduction modulo `2 ^ 32` (FIPS 180-4), rendered
  as 64 lowercase hexadecimal characters.
* Python `float` arithmetic inside `evaluate_strength` is modelled over `ℚ`;
  `round(x, 3)` is modelled as exact rounding to the nearest multiple of
  `1/1000`.
* Python's insertion-ordered `dict` is an association list with unique keys,
  appended on fresh insert.
-/

namespace Project0

/-! ### SHA-256 over `Nat` (FIPS 180-4), used by `compute_fingerprint` -/

/-- Reduce to a 32-bit word. -/
def wmod (x : Nat) : Nat := x % 4294967296

/-- Right rotation of a 32-bit word by `n` bits. -/
def rotr (n x : Nat) : Nat := wmod (x >>> n ||| x <<< (32 - n))

/-- Bitwise complement of a 32-bit word. -/
def wnot (x : Nat) : Nat := x ^^^ 4294967295

def ch (x y z : Nat) : Nat := (x &&& y) ^^^ (wnot x &&& z)

def maj (x y z : Nat) : Nat := (x &&& y) ^^^ (x &&& z) ^^^ (y &&& z)

def bsig0 (x : Nat) : Nat := rotr 2 x ^^^ rotr 13 x ^^^ rotr 22 x

def bsig1 (x : Nat) : Nat := rotr 6 x ^^^ rotr 11 x ^^^ rotr 25 x

def ssig0 (x : Nat) : Nat := rotr 7 x ^^^ rotr 18 x ^^^ (x >>> 3)

def ssig1 (x : Nat) : Nat := rotr 17 x ^^^ rotr 19 x ^^^ (x >>> 10)

/-- The 64 SHA-256 round constants. -/
def sha256K : List Nat :=
  [1116352408, 1899447441, 3049323471, 3921009573, 961987163, 1508970993,
   2453635748, 2870763221, 3624381080, 310598401, 607225278, 1426881987,
   1925078388, 2162078206, 2614888103, 3248222580, 3835390401, 4022224774,
   264347078, 604807628, 770255983, 1249150122, 1555081692, 1996064986,
   2554220882, 2821834349, 2952996808, 3210313671, 3336571891, 3584528711,
   113926993, 338241895, 666307205, 773529912, 1294757372, 1396182291,
   1695183700, 1986661051, 2177026350, 2456956037, 2730485921, 2820302411,
   3259730800, 3345764771, 3516065817, 3600352804, 4094571909, 275423344,
   430227734, 506948616, 659060556, 883997877, 958139571, 1322822218,
   1537002063, 1747873779, 1955562222, 2024104815, 2227730452, 2361852424,
   2428436474, 2756734187, 3204031479, 3329325298]

/-- The initial SHA-256 hash state. -/
def sha256H0 : List Nat :=
  [1779033703, 3144134277, 1013904242, 2773480762,
   1359893119, 2600822924, 528734635, 1541459225]

/-- Byte `k` (counting by bit offset from the least significant end) of `l`. -/
def wByte (l k : Nat) : Nat := l >>> k % 256

/-- Big-endian 8-byte rendering of a message bit length. -/
def lenBytes (l : Nat) : List Nat :=
  [wByte l 56, wByte l 48, wByte l 40, wByte l 32, wByte l 24, wByte l 16, wByte l 8, wByte l 0]

/-- SHA-256 padding: append `0x80`, zero bytes to 56 mod 64, then the
big-endian 64-bit bit length. -/
def padMsg (msg : List Nat) : List Nat :=
  let l := msg.length
  let zeros := (56 + 64 - (l + 1) % 64) % 64
  msg ++ [0x80] ++ List.replicate zeros 0 ++ lenBytes (8 * l)

/-- Group a byte list into big-endian 32-bit words. -/
def toWords : List Nat → List Nat
  | b0 :: b1 :: b2 :: b3 :: rest =>
      (((b0 * 256 + b1) * 256 + b2) * 256 + b3) :: toWords rest
  | _ => []

/-- One step of the message-schedule extension. `w` holds the schedule so
far in reverse (most recent word first). -/
def schedStep (w : List Nat) : List Nat :=
  wmod (ssig1 (w.getD 1 0) + w.getD 6 0 + ssig0 (w.getD 14 0) + w.getD 15 0) :: w

/-- Iterate the schedule extension `n` times. -/
def schedExtend : Nat → List Nat → List Nat
  | 0, w => w
  | n + 1, w => schedExtend n (schedStep w)

/-- The full 64-word message schedule of a 16-word block. -/
def schedule (block : List Nat) : List Nat :=
  (schedExtend 48 block.reverse).reverse

/-- One SHA-256 compression round on the 8-word working state. -/
def compressStep (st : List Nat) (kw : Nat × Nat) : List Nat :=
  let a := st.getD 0 0
  let b := st.getD 1 0
  let c := st.getD 2 0
  let d := st.getD 3 0
  let e := st.getD 4 0
  let f := st.getD 5 0
  let g := st.getD 6 0
  let h := st.getD 7 0
  let t1 := wmod (h + bsig1 e + ch e f g + kw.1 + kw.2)
  let t2 := wmod (bsig0 a + maj a b c)
  [wmod (t1 + t2), a, b, c, wmod (d + t1), e, f, g]

/-- Process one 64-byte block, updating the 8-word hash state. -/
def blockUpdate (H block : List Nat) : List Nat :=
  let final := (sha256K.zip (schedule (toWords block))).foldl compressStep H
  (H.zip final).map fun p => wmod (p.1 + p.2)

/-- Split a byte list into 64-byte chunks; `fuel` bounds the recursion and
`l.length` is always enough since every step consumes at least one byte. -/
def chunks64Aux : Nat → List Nat → List (List Nat)
  | 0, _ => []
  | fuel + 1, l => if l = [] then [] else l.take 64 :: chunks64Aux fuel (l.drop 64)

/-- Split a byte list into 64-byte chunks. -/
def chunks64 (l : List Nat) : List (List Nat) := chunks64Aux l.length l

/-- The eight 32-bit words of the SHA-256 digest of a byte list. -/
def sha256Words (msg : List Nat) : List Nat :=
  (chunks64 (padMsg msg)).foldl blockUpdate sha256H0

/-- The sixteen lowercase hexadecimal digit characters. -/
def hexDigits : List Char := "0123456789abcdef".data

def hexDigit (n : Nat) : Char := hexDigits.getD n '0'

/-- Render a 32-bit word as 8 lowercase hex characters, big-endian. -/
def toHex8 (w : Nat) : List Char :=
  [hexDigit (w >>> 28 % 16), hexDigit (w >>> 24 % 16), hexDigit (w >>> 20 % 16),
   hexDigit (w >>> 16 % 16), hexDigit (w >>> 12 % 16), hexDigit (w >>> 8 % 16),
   hexDigit (w >>> 4 % 16), hexDigit (w % 16)]

/-- `hashlib.sha256(bytes).hexdigest()`. -/
def sha256Hex (msg : List Nat) : String :=
  String.mk ((sha256Words msg).map toHex8).flatten

/-- UTF-8 encoding of one character (Python `str.encode()` per character). -/
def utf8EncodeChar (c : Char) : List Nat :=
  let n := c.toNat
  if n < 0x80 then [n]
  else if n < 0x800 then [0xC0 + n / 64, 0x80 + n % 64]
  else if n < 0x10000 then [0xE0 + n / 4096, 0x80 + n / 64 % 64, 0x80 + n % 64]
  else [0xF0 + n / 262144, 0x80 + n / 4096 % 64, 0x80 + n / 64 % 64, 0x80 + n % 64]

/-- UTF-8 encoding of a string (Python `str.encode()`). -/
def utf8Encode (s : String) : List Nat := (s.data.map utf8EncodeChar).flatten

/-- `KnowledgeEntry.compute_fingerprint`:
`hashlib.sha256((self.content + self.source).encode()).hexdigest()`. -/
def compute_fingerprint (content source : String) : String :=
  sha256Hex (utf8Encode (content ++ source))

/-! ### Блок 1: `KnowledgeEntry` -/

/-- A knowledge entry. `id` and `timestamp` come from external services
(`uuid.uuid4()`, `datetime.utcnow()`), so the constructor takes them as
parameters. -/
structure KnowledgeEntry where
  id : String
  timestamp : String
  content : String
  source : String
  tags : List String
  fingerprint : String
deriving DecidableEq

/-- `KnowledgeEntry.__init__(content, source, tags)`: stores the fields and
computes the fingerprint exactly once, at construction. -/
def KnowledgeEntry.init (id timestamp content source : String) (tags : List String) :
    KnowledgeEntry :=
  { id := id, timestamp := timestamp, content := content, source := source,
    tags := tags, fingerprint := compute_fingerprint content source }

/-! ### Блок 3: `KnowledgeBase` -/

/-- `KnowledgeBase`: `self.entries` is a Python dict (insertion-ordered,
unique keys), modelled as an association list appended on fresh insert. -/
structure KnowledgeBase where
  entries : List (String × KnowledgeEntry)
deriving DecidableEq

/-- `KnowledgeBase.__init__`: `self.entries = {}`. -/
def KnowledgeBase.initKB : KnowledgeBase := ⟨[]⟩

/-- Python `entry.fingerprint in self.entries` (dict key membership). -/
def KnowledgeBase.hasKey (kb : KnowledgeBase) (fp : String) : Bool :=
  kb.entries.any fun p => p.1 == fp

/-- `KnowledgeBase.add_entry`: insert keyed by the fingerprint only when the
key is absent; otherwise leave the base unchanged. -/
def KnowledgeBase.add_entry (kb : KnowledgeBase) (e : KnowledgeEntry) : KnowledgeBase :=
  if kb.hasKey e.fingerprint then kb else ⟨kb.entries ++ [(e.fingerprint, e)]⟩

/-- `KnowledgeBase.all_entries`: `list(self.entries.values())`. -/
def KnowledgeBase.all_entries (kb : KnowledgeBase) : List KnowledgeEntry :=
  kb.entries.map Prod.snd

/-- `KnowledgeBase.search_by_tag`:
`[e for e in self.entries.values() if tag in e.tags]`. -/
def KnowledgeBase.search_by_tag (kb : KnowledgeBase) (tag : String) : List KnowledgeEntry :=
  (kb.entries.map Prod.snd).filter fun e => e.tags.contains tag

/-! ### Блок 2: `ProofNode` -/

/-- A proof-tree node. `id` and `created` come from the external identity
service, so they are constructor parameters. -/
inductive ProofNode : Type where
  | mk (id claim source proof_type created : String) (children : List ProofNode)

def ProofNode.id : ProofNode → String
  | .mk i _ _ _ _ _ => i

def ProofNode.claim : ProofNode → String
  | .mk _ c _ _ _ _ => c

def ProofNode.source : ProofNode → String
  | .mk _ _ s _ _ _ => s

def ProofNode.proof_type : ProofNode → String
  | .mk _ _ _ pt _ _ => pt

def ProofNode.created : ProofNode → String
  | .mk _ _ _ _ cr _ => cr

def ProofNode.children : ProofNode → List ProofNode
  | .mk _ _ _ _ _ cs => cs

/-- `ProofNode.__init__(claim, source, proof_type)`: empty child list. -/
def ProofNode.init (id claim source proof_type created : String) : ProofNode :=
  .mk id claim source proof_type created []

/-- `ProofNode.add_child`: `self.children.append(node)`. -/
def ProofNode.add_child : ProofNode → ProofNode → ProofNode
  | .mk i c s pt cr cs, n => .mk i c s pt cr (cs ++ [n])

/-- The `weight_map` dict literal of `evaluate_strength`. -/
def weight_map : List (String × ℚ) :=
  [("experiment", 1.0), ("observation", 0.8), ("text", 0.6),
   ("tradition", 0.4), ("opinion", 0.2)]

/-- `weight_map.get(proof_type, 0.1)`. -/
def weight (proof_type : String) : ℚ :=
  (weight_map.lookup proof_type).getD 0.1

/-- Python `round(x, 3)`: exact rounding of a rational to the nearest
multiple of `1/1000`. -/
def round3 (q : ℚ) : ℚ := ((round (q * 1000) : ℤ) : ℚ) / 1000

mutual

/-- `ProofNode.evaluate_strength`:
`base = 1.0; base *= weight_map.get(self.proof_type, 0.1);
base += sum(child.evaluate_strength() for child in self.children) * 0.5;
return round(base, 3)`. -/
def ProofNode.evaluate_strength : ProofNode → ℚ
  | .mk _ _ _ pt _ cs => round3 (1.0 * weight pt + strengthSum cs * 0.5)

/-- `sum(child.evaluate_strength() for child in children)`. -/
def strengthSum : List ProofNode → ℚ
  | [] => 0
  | c :: cs => c.evaluate_strength + strengthSum cs

end

/-- Spec-side weight table, written from the spec's words: "weight maps
experiment to 1.0, observation to 0.8, text to 0.6, tradition to 0.4,
opinion to 0.2, and any other proof_type string to 0.1". For the refinement
claim only; the source-side table is `weight_map`. -/
def weightSpec : String → ℚ
  | "experiment" => 1.0
  | "observation" => 0.8
  | "text" => 0.6
  | "tradition" => 0.4
  | "opinion" => 0.2
  | _ => 0.1

mutual

/-- Spec-side scoring recurrence, written from the spec's words:
`strength(n) = round(weight(n.proof_type) + 0.5 * Σ strength(c), 3)`,
rounding applied to the value returned at every node, children's
already-rounded values feeding the parent's sum. -/
def strengthSpec : ProofNode → ℚ
  | .mk _ _ _ pt _ cs => round3 (weightSpec pt + 0.5 * strengthSpecSum cs)

/-- `Σ_{c in children} strength(c)` on the spec side. -/
def strengthSpecSum : List ProofNode → ℚ
  | [] => 0
  | c :: cs => strengthSpec c + strengthSpecSum cs

end

/-- Values of the nested ordered mapping produced by `to_dict`. -/
inductive JVal : Type where
  | str (s : String)
  | num (q : ℚ)
  | arr (vs : List JVal)
  | obj (fields : List (String × JVal))

mutual

/-- `ProofNode.to_dict`: the nested ordered mapping with the seven keys in
source order, recomputing `evaluate_strength` at every level. -/
def ProofNode.to_dict : ProofNode → JVal
  | .mk i c s pt cr cs =>
      .obj [("id", .str i), ("claim", .str c), ("source", .str s),
            ("proof_type", .str pt), ("created", .str cr),
            ("strength", .num (ProofNode.mk i c s pt cr cs).evaluate_strength),
            ("children", .arr (to_dictList cs))]

/-- `[child.to_dict() for child in children]`. -/
def to_dictList : List ProofNode → List JVal
  | [] => []
  | c :: cs => c.to_dict :: to_dictList cs

end

/-- The key sequence of a view (empty for non-mapping values). -/
def viewKeys : JVal → List String
  | .obj fs => fs.map Prod.fst
  | _ => []

/-- Field lookup in a view. -/
def viewField : JVal → String → Option JVal
  | .obj fs, k => fs.lookup k
  | _, _ => none

mutual

/-- Depth of a proof tree: a leaf has depth 1. -/
def ProofNode.depth : ProofNode → Nat
  | .mk _ _ _ _ _ cs => 1 + depthList cs

/-- Maximum depth over a child list (0 when empty). -/
def depthList : List ProofNode → Nat
  | [] => 0
  | c :: cs => max c.depth (depthList cs)

end

mutual

/-- Nesting depth of a view: each mapping level adds 1; sequences are
transparent; scalar values have depth 0. -/
def viewDepth : JVal → Nat
  | .str _ => 0
  | .num _ => 0
  | .arr vs => viewDepthList vs
  | .obj fs => 1 + viewDepthFields fs

/-- Maximum view depth over a sequence. -/
def viewDepthList : List JVal → Nat
  | [] => 0
  | v :: vs => max (viewDepth v) (viewDepthList vs)

/-- Maximum view depth over the values of a field list. -/
def viewDepthFields : List (String × JVal) → Nat
  | [] => 0
  | (_, v) :: fs => max (viewDepth v) (viewDepthFields fs)

end

/-- The states of a `KnowledgeBase` reachable from the empty base: created
empty, mutated only by `add_entry` with constructor-built entries.
`search_by_tag` and `all_entries` are pure functions of the state and
appear in no transition. -/
inductive Reachable : KnowledgeBase → Prop where
  | initKB : Reachable KnowledgeBase.initKB
  | add (kb : KnowledgeBase) (id ts content source : String) (tags : List String) :
      Reachable kb →
      Reachable (kb.add_entry (KnowledgeEntry.init id ts content source tags))

/-- A small concrete base used by witnesses: one entry added to the empty
base. -/
def kbW : KnowledgeBase :=
  KnowledgeBase.initKB.add_entry (KnowledgeEntry.init "i" "t" "c" "s" ["x"])

/-! ### Helper lemmas: proof-tree scoring -/

theorem strengthSum_eq_map_sum (cs : List ProofNode) :
    strengthSum cs = (cs.map ProofNode.evaluate_strength).sum := by
  induction cs with
  | nil => rfl
  | cons c cs ih => simp [strengthSum, ih]

theorem ProofNode.strong_ind (P : ProofNode → Prop)
    (h : ∀ i c s pt cr cs, (∀ m ∈ cs, P m) → P (ProofNode.mk i c s pt cr cs)) :
    ∀ n, P n := fun n =>
  @ProofNode.rec P (fun l => ∀ m ∈ l, P m)
    (fun i c s pt cr cs ih => h i c s pt cr cs ih)
    (fun m hm => absurd hm (List.not_mem_nil m))
    (fun _ _ ihh iht m hm => by
      rcases List.mem_cons.mp hm with h1 | h2
      · exact h1 ▸ ihh
      · exact iht m h2)
    n

theorem weight_eq_weightSpec (pt : String) : weight pt = weightSpec pt := by
  by_cases h1 : pt = "experiment"
  · subst h1; rfl
  by_cases h2 : pt = "observation"
  · subst h2; rfl
  by_cases h3 : pt = "text"
  · subst h3; rfl
  by_cases h4 : pt = "tradition"
  · subst h4; rfl
  by_cases h5 : pt = "opinion"
  · subst h5; rfl
  have hws : weightSpec pt = 0.1 := by
    unfold weightSpec
    split <;> simp_all
  have hw : weight pt = 0.1 := by
    have e1 : (pt == "experiment") = false := by simp [h1]
    have e2 : (pt == "observation") = false := by simp [h2]
    have e3 : (pt == "text") = false := by simp [h3]
    have e4 : (pt == "tradition") = false := by simp [h4]
    have e5 : (pt == "opinion") = false := by simp [h5]
    simp [weight, weight_map, List.lookup, e1, e2, e3, e4, e5]
  rw [hw, hws]

theorem round3_mono {x y : ℚ} (h : x ≤ y) : round3 x ≤ round3 y := by
  unfold round3
  have h2 : round (x * 1000) ≤ round (y * 1000) := by
    rw [round_eq, round_eq]
    exact Int.floor_le_floor (by linarith)
  have h3 : ((round (x * 1000) : ℤ) : ℚ) ≤ ((round (y * 1000) : ℤ) : ℚ) := by
    exact_mod_cast h2
  linarith

theorem round3_tenth : round3 0.1 = 0.1 := by
  rw [round3, round_eq]; norm_num

theorem weight_ge_tenth (pt : String) : (0.1 : ℚ) ≤ weight pt := by
  rw [weight_eq_weightSpec]
  unfold weightSpec
  split <;> norm_num

theorem strengthSum_congr (cs : List ProofNode)
    (h : ∀ m ∈ cs, m.evaluate_strength = strengthSpec m) :
    strengthSum cs = strengthSpecSum cs := by
  induction cs with
  | nil => rfl
  | cons m ms ih =>
      simp only [strengthSum, strengthSpecSum]
      rw [h m (List.mem_cons_self m ms), ih fun x hx => h x (List.mem_cons_of_mem m hx)]

/-- C1: `evaluate_strength` returns `round(weight(proof_type) + 0.5 * Σ
children strengths, 3)` with the weight table experiment 1.0, observation
0.8, text 0.6, tradition 0.4, opinion 0.2, default 0.1; the rounding is
applied to the value returned at every node, so a leaf returns
`round(weight(proof_type), 3)` and children's already-rounded values feed
the parent's sum. -/
theorem evaluate_strength_correct :
    (∀ n : ProofNode, n.evaluate_strength = strengthSpec n) ∧
    (∀ pt, weight pt = weightSpec pt) ∧
    (∀ i c s pt cr, (ProofNode.mk i c s pt cr []).evaluate_strength
        = round3 (weightSpec pt)) := by
  have main : ∀ n : ProofNode, n.evaluate_strength = strengthSpec n := by
    refine ProofNode.strong_ind _ ?_
    intro i c s pt cr cs ih
    show round3 (1.0 * weight pt + strengthSum cs * 0.5)
        = round3 (weightSpec pt + 0.5 * strengthSpecSum cs)
    rw [weight_eq_weightSpec, strengthSum_congr cs ih]
    congr 1
    ring
  refine ⟨main, weight_eq_weightSpec, ?_⟩
  intro i c s pt cr
  show round3 (1.0 * weight pt + strengthSum [] * 0.5) = round3 (weightSpec pt)
  rw [weight_eq_weightSpec]
  congr 1
  show (1.0 : ℚ) * weightSpec pt + (0 : ℚ) * 0.5 = weightSpec pt
  norm_num

/-- C8: `evaluate_strength` is invariant under any permutation of the
children list, scoring being a sum over children. -/
theorem strength_perm_invariant (i c s pt cr : String) (cs cs' : List ProofNode)
    (h : cs.Perm cs') :
    (ProofNode.mk i c s pt cr cs).evaluate_strength
      = (ProofNode.mk i c s pt cr cs').evaluate_strength := by
  show round3 (1.0 * weight pt + strengthSum cs * 0.5)
      = round3 (1.0 * weight pt + strengthSum cs' * 0.5)
  rw [strengthSum_eq_map_sum, strengthSum_eq_map_sum,
    (h.map ProofNode.evaluate_strength).sum_eq]

/-- Witness for C8 at a concrete two-child tree. -/
theorem strength_perm_invariant_witness :
    (ProofNode.mk "r" "" "" "text" ""
        [.mk "a" "" "" "observation" "" [], .mk "b" "" "" "tradition" "" []]).evaluate_strength
      = (ProofNode.mk "r" "" "" "text" ""
        [.mk "b" "" "" "tradition" "" [], .mk "a" "" "" "observation" "" []]).evaluate_strength :=
  strength_perm_invariant "r" "" "" "text" ""
    [.mk "a" "" "" "observation" "" [], .mk "b" "" "" "tradition" "" []]
    [.mk "b" "" "" "tradition" "" [], .mk "a" "" "" "observation" "" []]
    (List.Perm.swap (ProofNode.mk "b" "" "" "tradition" "" [])
      (ProofNode.mk "a" "" "" "observation" "" []) [])

/-- C10: every node of a proof tree evaluates to at least 0.1: every weight
is at least 0.1, children contribute non-negatively, and rounding to 3
decimal places preserves the bound. -/
theorem strength_lower_bound : ∀ n : ProofNode, (0.1 : ℚ) ≤ n.evaluate_strength := by
  refine ProofNode.strong_ind _ ?_
  intro i c s pt cr cs ih
  show (0.1 : ℚ) ≤ round3 (1.0 * weight pt + strengthSum cs * 0.5)
  calc (0.1 : ℚ) = round3 0.1 := round3_tenth.symm
    _ ≤ round3 (1.0 * weight pt + strengthSum cs * 0.5) := by
        apply round3_mono
        have hw := weight_ge_tenth pt
        have hs : 0 ≤ strengthSum cs := by
          rw [strengthSum_eq_map_sum]
          apply List.sum_nonneg
          intro x hx
          obtain ⟨m, hm, rfl⟩ := List.mem_map.mp hx
          linarith [ih m hm]
        linarith

/-! ### Helper lemmas: the `to_dict` view -/

theorem to_dictList_eq_map (cs : List ProofNode) :
    to_dictList cs = cs.map ProofNode.to_dict := by
  induction cs with
  | nil => rfl
  | cons c cs ih => simp [to_dictList, ih]

theorem viewDepthList_to_dictList (cs : List ProofNode)
    (h : ∀ m ∈ cs, viewDepth m.to_dict = m.depth) :
    viewDepthList (to_dictList cs) = depthList cs := by
  induction cs with
  | nil => rfl
  | cons m ms ih =>
      simp only [to_dictList, viewDepthList, depthList]
      rw [h m (List.mem_cons_self m ms), ih fun x hx => h x (List.mem_cons_of_mem m hx)]

theorem viewDepth_to_dict : ∀ n : ProofNode, viewDepth n.to_dict = n.depth := by
  refine ProofNode.strong_ind _ ?_
  intro i c s pt cr cs ih
  simp only [ProofNode.to_dict, ProofNode.depth, viewDepth, viewDepthFields,
    Nat.zero_max, Nat.max_zero]
  rw [viewDepthList_to_dictList cs ih]

/-- C6: `to_dict` produces a nested mapping with exactly the keys
`id, claim, source, proof_type, created, strength, children` at every
level, `strength` recomputed by `evaluate_strength` at that level,
`children` the ordered sequence of each child's own view, and the view of
a depth-D tree nests to depth D. -/
theorem to_dict_spec : ∀ n : ProofNode,
    viewKeys n.to_dict
      = ["id", "claim", "source", "proof_type", "created", "strength", "children"] ∧
    viewField n.to_dict "strength" = some (.num n.evaluate_strength) ∧
    viewField n.to_dict "children" = some (.arr (n.children.map ProofNode.to_dict)) ∧
    viewDepth n.to_dict = n.depth := by
  intro n
  obtain ⟨i, c, s, pt, cr, cs⟩ := n
  refine ⟨rfl, rfl, ?_, viewDepth_to_dict _⟩
  show (List.lookup "children" _) = _
  rw [show (ProofNode.mk i c s pt cr cs).children = cs from rfl, ← to_dictList_eq_map]
  rfl

/-! ### Helper lemmas: knowledge base -/

theorem hasKey_iff (kb : KnowledgeBase) (fp : String) :
    kb.hasKey fp = true ↔ fp ∈ kb.entries.map Prod.fst := by
  simp only [KnowledgeBase.hasKey, List.any_eq_true, List.mem_map, beq_iff_eq]

theorem contains_iff_mem (l : List String) (t : String) :
    l.contains t = true ↔ t ∈ l := by
  simp only [List.contains]
  exact List.elem_iff

theorem assoc_key_unique {l : List (String × KnowledgeEntry)}
    (h : (l.map Prod.fst).Nodup) {k : String} {e1 e2 : KnowledgeEntry}
    (h1 : (k, e1) ∈ l) (h2 : (k, e2) ∈ l) : e1 = e2 := by
  induction l with
  | nil => simp at h1
  | cons p ps ih =>
      simp only [List.map_cons, List.nodup_cons] at h
      rcases List.mem_cons.mp h1 with q1 | m1
      · rcases List.mem_cons.mp h2 with q2 | m2
        · exact (Prod.ext_iff.mp (q1.trans q2.symm)).2
        · subst q1
          exact absurd (List.mem_map_of_mem Prod.fst m2) h.1
      · rcases List.mem_cons.mp h2 with q2 | m2
        · subst q2
          exact absurd (List.mem_map_of_mem Prod.fst m1) h.1
        · exact ih h.2 m1 m2

theorem add_entry_grows (kb : KnowledgeBase) (e : KnowledgeEntry) :
    ∃ t, (kb.add_entry e).entries = kb.entries ++ t := by
  unfold KnowledgeBase.add_entry
  split
  · exact ⟨[], (List.append_nil _).symm⟩
  · exact ⟨[(e.fingerprint, e)], rfl⟩

/-- C2: `add_entry` stores the entry keyed by its fingerprint exactly when
the fingerprint is absent; on a duplicate the base is left completely
unchanged, and inserting two entries with identical `(content, source)` —
even with different id, timestamp, tags — leaves exactly the first one. -/
theorem add_entry_dedup :
    (∀ (kb : KnowledgeBase) (e : KnowledgeEntry),
      (kb.hasKey e.fingerprint = false →
        (kb.add_entry e).entries = kb.entries ++ [(e.fingerprint, e)]) ∧
      (kb.hasKey e.fingerprint = true → kb.add_entry e = kb)) ∧
    (∀ id1 ts1 id2 ts2 content source tags1 tags2,
      ((KnowledgeBase.initKB.add_entry
          (KnowledgeEntry.init id1 ts1 content source tags1)).add_entry
            (KnowledgeEntry.init id2 ts2 content source tags2)).entries
        = [(compute_fingerprint content source,
            KnowledgeEntry.init id1 ts1 content source tags1)]) := by
  constructor
  · intro kb e
    constructor
    · intro h
      simp [KnowledgeBase.add_entry, h]
    · intro h
      simp [KnowledgeBase.add_entry, h]
  · intro id1 ts1 id2 ts2 content source tags1 tags2
    have step1 : KnowledgeBase.initKB.add_entry
        (KnowledgeEntry.init id1 ts1 content source tags1)
        = ⟨[((KnowledgeEntry.init id1 ts1 content source tags1).fingerprint,
            KnowledgeEntry.init id1 ts1 content source tags1)]⟩ := by
      simp [KnowledgeBase.add_entry, KnowledgeBase.hasKey, KnowledgeBase.initKB]
    rw [step1]
    have hfp : (KnowledgeEntry.init id2 ts2 content source tags2).fingerprint
        = (KnowledgeEntry.init id1 ts1 content source tags1).fingerprint := rfl
    have step2 : (⟨[((KnowledgeEntry.init id1 ts1 content source tags1).fingerprint,
            KnowledgeEntry.init id1 ts1 content source tags1)]⟩ : KnowledgeBase).add_entry
          (KnowledgeEntry.init id2 ts2 content source tags2)
        = ⟨[((KnowledgeEntry.init id1 ts1 content source tags1).fingerprint,
            KnowledgeEntry.init id1 ts1 content source tags1)]⟩ := by
      simp [KnowledgeBase.add_entry, KnowledgeBase.hasKey, hfp]
    rw [step2]
    rfl

/-- Witness for C2: fresh insert appends; duplicate fingerprint is a no-op;
two same-`(content, source)` inserts keep only the first entry. -/
theorem add_entry_dedup_witness :
    (KnowledgeBase.initKB.add_entry (KnowledgeEntry.init "i1" "t1" "c" "s" ["x"])).entries
      = KnowledgeBase.initKB.entries
        ++ [((KnowledgeEntry.init "i1" "t1" "c" "s" ["x"]).fingerprint,
             KnowledgeEntry.init "i1" "t1" "c" "s" ["x"])] ∧
    (⟨[("k", KnowledgeEntry.mk "i" "t" "c" "s" [] "k")]⟩ : KnowledgeBase).add_entry
        (KnowledgeEntry.mk "i2" "t2" "c2" "s2" [] "k")
      = ⟨[("k", KnowledgeEntry.mk "i" "t" "c" "s" [] "k")]⟩ ∧
    ((KnowledgeBase.initKB.add_entry (KnowledgeEntry.init "a" "b" "c" "s" [])).add_entry
        (KnowledgeEntry.init "a2" "b2" "c" "s" [])).entries
      = [(compute_fingerprint "c" "s", KnowledgeEntry.init "a" "b" "c" "s" [])] :=
  ⟨(add_entry_dedup.1 _ _).1 rfl,
   (add_entry_dedup.1 _ _).2 (by simp [KnowledgeBase.hasKey]),
   add_entry_dedup.2 "a" "b" "a2" "b2" "c" "s" [] []⟩

/-- C4: a stored entry appears in `search_by_tag t` iff `t` is a member of
its tags; when no stored entry's tags contain `t` the result is empty. -/
theorem search_by_tag_correct (kb : KnowledgeBase) (e : KnowledgeEntry) (t : String) :
    (e ∈ kb.search_by_tag t ↔ e ∈ kb.all_entries ∧ t ∈ e.tags) ∧
    ((∀ e' ∈ kb.all_entries, t ∉ e'.tags) → kb.search_by_tag t = []) := by
  constructor
  · rw [KnowledgeBase.search_by_tag, List.mem_filter, contains_iff_mem]
    exact Iff.rfl
  · intro h
    rw [KnowledgeBase.search_by_tag, List.filter_eq_nil_iff]
    intro e' he' hc
    exact h e' he' ((contains_iff_mem _ _).mp hc)

/-- C9: `search_by_tag` is exactly the order-preserving filter of
`all_entries` by tag membership; in particular it is a sublist of
`all_entries`. -/
theorem search_by_tag_filter_all (kb : KnowledgeBase) (t : String) :
    kb.search_by_tag t = kb.all_entries.filter (fun e => e.tags.contains t) ∧
    List.Sublist (kb.search_by_tag t) kb.all_entries :=
  ⟨rfl, List.filter_sublist _⟩

/-- Witness for C4 at a one-entry base. -/
theorem search_by_tag_correct_witness :
    (KnowledgeEntry.mk "i" "t" "c" "s" ["x"] "f"
        ∈ (⟨[("f", KnowledgeEntry.mk "i" "t" "c" "s" ["x"] "f")]⟩ :
            KnowledgeBase).search_by_tag "x"
      ↔ KnowledgeEntry.mk "i" "t" "c" "s" ["x"] "f"
          ∈ (⟨[("f", KnowledgeEntry.mk "i" "t" "c" "s" ["x"] "f")]⟩ :
              KnowledgeBase).all_entries
        ∧ "x" ∈ (KnowledgeEntry.mk "i" "t" "c" "s" ["x"] "f").tags) ∧
    (⟨[("f", KnowledgeEntry.mk "i" "t" "c" "s" ["x"] "f")]⟩ :
        KnowledgeBase).search_by_tag "y" = [] :=
  ⟨(search_by_tag_correct ⟨[("f", KnowledgeEntry.mk "i" "t" "c" "s" ["x"] "f")]⟩
      (KnowledgeEntry.mk "i" "t" "c" "s" ["x"] "f") "x").1,
   (search_by_tag_correct ⟨[("f", KnowledgeEntry.mk "i" "t" "c" "s" ["x"] "f")]⟩
      (KnowledgeEntry.mk "i" "t" "c" "s" ["x"] "f") "y").2 (by decide)⟩

/-- C7: every base reachable from the empty one by `add_entry` (the only
mutator; `search_by_tag` and `all_entries` are pure reads of the state)
stores under each key an entry whose fingerprint equals that key and is
the hash of its own content and source, keeps keys unique with at most one
entry per `(content, source)` pair, and only grows under `add_entry`. -/
theorem kb_reachable_invariant (kb : KnowledgeBase) (hkb : Reachable kb) :
    (∀ p ∈ kb.entries, p.2.fingerprint = p.1 ∧
      p.2.fingerprint = compute_fingerprint p.2.content p.2.source) ∧
    (kb.entries.map Prod.fst).Nodup ∧
    (∀ e1 ∈ kb.all_entries, ∀ e2 ∈ kb.all_entries,
      e1.content = e2.content → e1.source = e2.source → e1 = e2) ∧
    (∀ e, ∃ t, (kb.add_entry e).entries = kb.entries ++ t) := by
  have main : (∀ p ∈ kb.entries, p.2.fingerprint = p.1 ∧
      p.2.fingerprint = compute_fingerprint p.2.content p.2.source) ∧
      (kb.entries.map Prod.fst).Nodup := by
    induction hkb with
    | initKB => exact ⟨by simp [KnowledgeBase.initKB], by simp [KnowledgeBase.initKB]⟩
    | add kb id ts content source tags hr ih =>
        by_cases hk : kb.hasKey (KnowledgeEntry.init id ts content source tags).fingerprint = true
        · simp only [KnowledgeBase.add_entry, hk, if_true]
          exact ih
        · rw [Bool.not_eq_true] at hk
          simp only [KnowledgeBase.add_entry, hk, Bool.false_eq_true, if_false]
          constructor
          · intro p hp
            rcases List.mem_append.mp hp with h1 | h2
            · exact ih.1 p h1
            · rw [List.mem_singleton] at h2
              subst h2
              exact ⟨rfl, rfl⟩
          · rw [List.map_append, List.nodup_append]
            refine ⟨ih.2, List.nodup_singleton _, ?_⟩
            simp only [List.map_cons, List.map_nil, List.disjoint_singleton]
            intro hmem
            rw [(hasKey_iff kb _).mpr hmem] at hk
            exact Bool.true_eq_false.mp hk
  refine ⟨main.1, main.2, ?_, add_entry_grows kb⟩
  intro e1 h1 e2 h2 hc hs
  obtain ⟨p1, hp1, hq1⟩ := List.mem_map.mp h1
  obtain ⟨p2, hp2, hq2⟩ := List.mem_map.mp h2
  obtain ⟨hf1, hh1⟩ := main.1 p1 hp1
  obtain ⟨hf2, hh2⟩ := main.1 p2 hp2
  have hkey : p1.1 = p2.1 := by
    rw [← hf1, ← hf2, hh1, hh2, hq1, hq2, hc, hs]
  have hp2' : (p1.1, p2.2) ∈ kb.entries := by
    rw [hkey]
    exact hp2
  have hu := assoc_key_unique main.2 (show (p1.1, p1.2) ∈ kb.entries from hp1) hp2'
  rw [← hq1, ← hq2, hu]

/-- Witness for C7 at the one-step reachable base `kbW`. -/
theorem kb_reachable_invariant_witness :
    (∀ p ∈ kbW.entries, p.2.fingerprint = p.1 ∧
      p.2.fingerprint = compute_fingerprint p.2.content p.2.source) ∧
    (kbW.entries.map Prod.fst).Nodup ∧
    (∀ e1 ∈ kbW.all_entries, ∀ e2 ∈ kbW.all_entries,
      e1.content = e2.content → e1.source = e2.source → e1 = e2) ∧
    (∀ e, ∃ t, (kbW.add_entry e).entries = kbW.entries ++ t) :=
  kb_reachable_invariant kbW
    (Reachable.add KnowledgeBase.initKB "i" "t" "c" "s" ["x"] Reachable.initKB)

/-! ### Helper lemmas: SHA-256 digest shape -/

theorem compressStep_length (st : List Nat) (kw : Nat × Nat) :
    (compressStep st kw).length = 8 := rfl

theorem foldl_compressStep_length (kws : List (Nat × Nat)) (st : List Nat)
    (h : st.length = 8) : (kws.foldl compressStep st).length = 8 := by
  induction kws generalizing st with
  | nil => exact h
  | cons kw kws ih => exact ih _ (compressStep_length st kw)

theorem blockUpdate_length (H block : List Nat) (h : H.length = 8) :
    (blockUpdate H block).length = 8 := by
  unfold blockUpdate
  rw [List.length_map, List.length_zip, foldl_compressStep_length _ _ h, h]
  exact min_self 8

theorem foldl_blockUpdate_length (blocks : List (List Nat)) (H : List Nat)
    (h : H.length = 8) : (blocks.foldl blockUpdate H).length = 8 := by
  induction blocks generalizing H with
  | nil => exact h
  | cons b bs ih => exact ih _ (blockUpdate_length H b h)

theorem sha256Words_length (msg : List Nat) : (sha256Words msg).length = 8 :=
  foldl_blockUpdate_length _ _ rfl

theorem hexDigit_mem (n : Nat) : hexDigit n ∈ hexDigits := by
  unfold hexDigit
  rcases lt_or_ge n 16 with h | h
  · interval_cases n <;> decide
  · have hl : hexDigits.length ≤ n := by
      simp only [hexDigits, List.length_cons, List.length_nil]
      omega
    rw [List.getD_eq_default _ _ hl]
    decide

theorem toHex8_mem (w : Nat) : ∀ ch ∈ toHex8 w, ch ∈ hexDigits := by
  intro ch hch
  simp only [toHex8, List.mem_cons, List.not_mem_nil, or_false] at hch
  rcases hch with h | h | h | h | h | h | h | h <;> (subst h; exact hexDigit_mem _)

theorem sum_map_toHex8_length (ws : List Nat) :
    (ws.map (List.length ∘ toHex8)).sum = 8 * ws.length := by
  induction ws with
  | nil => rfl
  | cons w ws ih =>
      rw [List.map_cons, List.sum_cons, ih, List.length_cons]
      show 8 + 8 * ws.length = 8 * (ws.length + 1)
      ring

theorem sha256Hex_length (msg : List Nat) : (sha256Hex msg).length = 64 := by
  show ((sha256Words msg).map toHex8).flatten.length = 64
  rw [List.length_flatten, List.map_map, sum_map_toHex8_length, sha256Words_length]

theorem sha256Hex_mem (msg : List Nat) :
    ∀ ch ∈ (sha256Hex msg).data, ch ∈ hexDigits := by
  intro ch hch
  have hd : (sha256Hex msg).data = ((sha256Words msg).map toHex8).flatten := rfl
  rw [hd, List.mem_flatten] at hch
  obtain ⟨l, hl, hchl⟩ := hch
  obtain ⟨w, _, rfl⟩ := List.mem_map.mp hl
  exact toHex8_mem w ch hchl

set_option maxRecDepth 1000000 in
/-- C3: the fingerprint of a constructed entry is the SHA-256 digest of
`content ++ source` (UTF-8 bytes, no separator) rendered as a 64-character
lowercase-hexadecimal string; it is computed once at construction, depends
only on `(content, source)` (determinism), accepts any strings including
empty ones, and the digest function meets the standard SHA-256 test vector
for the empty message. -/
theorem fingerprint_spec :
    (∀ id ts content source tags,
      (KnowledgeEntry.init id ts content source tags).fingerprint
        = sha256Hex (utf8Encode (content ++ source))) ∧
    (∀ id ts content source tags,
      ((KnowledgeEntry.init id ts content source tags).fingerprint).length = 64) ∧
    (∀ id ts content source tags,
      ∀ ch ∈ ((KnowledgeEntry.init id ts content source tags).fingerprint).data,
        ch ∈ hexDigits) ∧
    (∀ id1 ts1 tags1 id2 ts2 tags2 content source,
      (KnowledgeEntry.init id1 ts1 content source tags1).fingerprint
        = (KnowledgeEntry.init id2 ts2 content source tags2).fingerprint) ∧
    compute_fingerprint "" ""
      = "e3b0c44298fc1c149afbf4c8996fb92427ae41e4649b934ca495991b7852b855" :=
  ⟨fun _ _ _ _ _ => rfl, fun _ _ _ _ _ => sha256Hex_length _,
   fun _ _ _ _ _ => sha256Hex_mem _, fun _ _ _ _ _ _ _ _ => rfl, by decide⟩

/-- C5: the fingerprint depends only on the no-separator concatenation
`content ++ source`, so differing splits with equal concatenation collide. -/
theorem fingerprint_concat_collision (c1 s1 c2 s2 : String)
    (h : c1 ++ s1 = c2 ++ s2) :
    compute_fingerprint c1 s1 = compute_fingerprint c2 s2 := by
  unfold compute_fingerprint
  rw [h]

/-- Witness for C5: `fingerprint("ab","c") = fingerprint("a","bc")`. -/
theorem fingerprint_concat_collision_witness :
    compute_fingerprint "ab" "c" = compute_fingerprint "a" "bc" :=
  fingerprint_concat_collision "ab" "c" "a" "bc" rfl

end Project0

